import Mathlib

/-!
# Verification of the Radicale protocol engine

A shallow embedding of the protocol engine of the Radicale calendar
server (files `radicale/__init__.py` and `radicale/xmlutils.py`), with
theorems settling the specification claims about it.

Pure Python string manipulation is embedded on `List Char` / `String`,
stateful handlers as explicit state-passing functions, and fallible
lookups as `Option`.  The storage backend (`radicale.ical`) and the
authorization backend (`radicale.acl`) are external collaborators whose
interfaces are modelled from the specification where needed; every such
definition carries a doc comment saying so.
-/

namespace Radicale

/-! ## Python string primitives

Embeddings of the Python `str` operations the source uses:
`strip("/")`, `split("/")` and `"/".join`.  They operate on `List Char`
so that structural induction is available. -/

/-- Python `s.strip("/")`: drop all leading and trailing `'/'` characters. -/
def stripSlashes (cs : List Char) : List Char :=
  ((cs.dropWhile (· = '/')).reverse.dropWhile (· = '/')).reverse

/-- Python `s.split("/")`.  Like Python, the result is never empty:
splitting the empty string yields `[[]]`. -/
def splitSlash : List Char → List (List Char)
  | [] => [[]]
  | c :: rest =>
    if c = '/' then [] :: splitSlash rest
    else
      match splitSlash rest with
      | [] => [[c]]
      | s :: ss => (c :: s) :: ss

/-- Python `"/".join(comps)` on character lists. -/
def joinSlash : List (List Char) → List Char
  | [] => []
  | [c] => c
  | c :: rest => c ++ '/' :: joinSlash rest

/-! ## `xmlutils.name_from_path` (xmlutils.py lines 123-127)

```python
def name_from_path(path, calendar):
    calendar_parts = calendar.local_path.strip("/").split("/")
    path_parts = path.strip("/").split("/")
    return path_parts[-1] if (len(path_parts) - len(calendar_parts)) else None
```
The truthiness test `len(path_parts) - len(calendar_parts)` holds exactly
when the two lengths differ (a negative difference is truthy too). -/

/-- The slash-separated parts of a path after stripping outer slashes:
`path.strip("/").split("/")`. -/
def pathParts (s : String) : List (List Char) :=
  splitSlash (stripSlashes s.data)

/-- `xmlutils.name_from_path`, with the calendar represented by its
`local_path` string (the only attribute the function reads).
`path_parts[-1]` is total because `split` never returns an empty list. -/
def name_from_path (path : String) (calendarLocalPath : String) : Option String :=
  let calendar_parts := pathParts calendarLocalPath
  let path_parts := pathParts path
  if path_parts.length = calendar_parts.length then none
  else some (String.mk (path_parts.getLastD []))

/-! ## REPORT flag parsing (xmlutils.py lines 400-410)

```python
    expand = limit_recurrence_set = False
    prop_element = root.find(_tag("D", "prop"))
    props = []
    for prop in prop_element:
        props.append(prop.tag)
        for child in prop:
            if child.tag == _tag("C", "expand"):
                expand = True
            elif child.tag == _tag("C", "expand"):
                expand = limit_recurrence_set = True
```
Note that the `elif` repeats the test of the `if` branch verbatim, so it
can never fire: `limit_recurrence_set` is never set. -/

/-- The fixed namespace table `NAMESPACES` from xmlutils.py. -/
def NAMESPACES : String → String
  | "C" => "urn:ietf:params:xml:ns:caldav"
  | "D" => "DAV:"
  | "CS" => "http://calendarserver.org/ns/"
  | "ICAL" => "http://apple.com/ns/ical/"
  | "ME" => "http://me.com/_namespace/"
  | _ => ""

/-- `xmlutils._tag(short_name, local)`: the XML Clark notation
`{uri(short_name)}local`. -/
def tagOf (short loc : String) : String :=
  "\x7b" ++ NAMESPACES short ++ "\x7d" ++ loc

/-- One step of the flag-parsing loop body over one child tag,
embedding the `if`/`elif` pair including the unreachable `elif`. -/
def reportFlagsStep (fl : Bool × Bool) (childTag : String) : Bool × Bool :=
  if childTag = tagOf "C" "expand" then (true, fl.2)
  else if childTag = tagOf "C" "expand" then (true, true)
  else fl

/-- The complete double loop of xmlutils.py lines 404-410: a request's
`prop` element is a list of properties, each a tag name paired with the
list of its children's tags; the fold visits the children in document
order starting from `(False, False)` and returns
`(expand, limit_recurrence_set)`. -/
def reportFlags (props : List (String × List String)) : Bool × Bool :=
  props.foldl (fun fl p => p.2.foldl reportFlagsStep fl) (false, false)

/-- The requested property tag list collected by the same loop. -/
def reportProps (props : List (String × List String)) : List String :=
  props.map Prod.fst

theorem reportFlagsStep_snd (fl : Bool × Bool) (t : String) :
    (reportFlagsStep fl t).2 = fl.2 := by
  unfold reportFlagsStep
  split <;> rfl

theorem reportFlagsStep_fst (fl : Bool × Bool) (t : String) :
    (reportFlagsStep fl t).1 = (fl.1 || (t = tagOf "C" "expand")) := by
  unfold reportFlagsStep
  split <;> rename_i h
  · simp [h]
  · simp [h]

theorem reportFlags_foldl_snd (l : List String) (fl : Bool × Bool) :
    (l.foldl reportFlagsStep fl).2 = fl.2 := by
  induction l generalizing fl with
  | nil => rfl
  | cons t rest ih => simp [List.foldl, ih, reportFlagsStep_snd]

theorem reportFlags_foldl_fst (l : List String) (fl : Bool × Bool) :
    (l.foldl reportFlagsStep fl).1
      = (fl.1 || l.any (fun t => t = tagOf "C" "expand")) := by
  induction l generalizing fl with
  | nil => simp
  | cons t rest ih =>
      simp only [List.foldl, List.any_cons, ih, reportFlagsStep_fst]
      cases fl.1 <;> simp [Bool.or_assoc]

theorem reportFlags_aux (props : List (String × List String)) (fl : Bool × Bool) :
    props.foldl (fun fl p => p.2.foldl reportFlagsStep fl) fl
      = ((fl.1 || props.any (fun p => p.2.any (fun t => t = tagOf "C" "expand"))), fl.2) := by
  induction props generalizing fl with
  | nil => simp
  | cons p rest ih =>
      simp only [List.foldl_cons, List.any_cons, ih, reportFlags_foldl_fst,
        reportFlags_foldl_snd]
      cases fl.1 <;> simp [Bool.or_assoc]

/-- C9: item-name resolution compares only path depth, never segment
content.  `name_from_path` returns `none` exactly when the path and the
calendar's local path have the same number of slash-separated segments
after stripping outer slashes; otherwise it returns the path's last
segment; and the result is unchanged when the calendar path is replaced
by any other path of the same depth. -/
theorem C9_name_from_path_depth_only (path cal : String) :
    (name_from_path path cal = none
        ↔ (pathParts path).length = (pathParts cal).length)
  ∧ ((pathParts path).length ≠ (pathParts cal).length →
      name_from_path path cal = some (String.mk ((pathParts path).getLastD [])))
  ∧ (∀ cal2 : String, (pathParts cal2).length = (pathParts cal).length →
      name_from_path path cal2 = name_from_path path cal) := by
  refine ⟨?_, ?_, ?_⟩
  · unfold name_from_path
    by_cases h : (pathParts path).length = (pathParts cal).length <;> simp [h]
  · intro h
    unfold name_from_path
    simp [h]
  · intro cal2 h
    unfold name_from_path
    simp only [h]

/-- Witness for C9 at concrete inputs: a three-segment path against a
two-segment calendar path names the item by its last segment, even
though the earlier segments do not match the calendar's. -/
theorem C9_name_from_path_witness :
    name_from_path "/A/B/x.ics" "/user/cal" = some "x.ics" := by
  have h := (C9_name_from_path_depth_only "/A/B/x.ics" "/user/cal").2.1 (by decide)
  rw [h]
  decide

/-- C6 counterexample: a request whose only per-property modifier child
is `limit-recurrence-set` leaves both flags false, while the claim says
the presence of either modifier sets both flags to true. -/
theorem C6_counterexample :
    reportFlags [("p1", [tagOf "C" "limit-recurrence-set"])] = (false, false)
  ∧ reportFlags [("p1", [tagOf "C" "limit-recurrence-set"])] ≠ (true, true) := by
  decide

/-- C6 (amended): the `expand` modifier child sets only the expand flag;
the `limit-recurrence-set` modifier has no effect because the `elif`
branch repeats the `expand` comparison and is unreachable, so the
limit-recurrence-set flag is always false; both flags are false when no
`expand` modifier is present. -/
theorem C6_flags_expand_only (props : List (String × List String)) :
    reportFlags props
      = (props.any (fun p => p.2.any (fun t => t = tagOf "C" "expand")), false) := by
  unfold reportFlags
  rw [reportFlags_aux]
  simp

/-! ## Authorization gate (__init__.py lines 192-218)

```python
    last_allowed = False
    calendars = []
    for calendar in items:
        if not isinstance(calendar, ical.DavItem):
            if last_allowed:
                calendars.append(calendar)
            continue
        if self.acl.has_right(calendar.owner, user, password):
            calendars.append(calendar)
            last_allowed = True
        else:
            last_allowed = False
```
Chain elements that are `ical.DavItem` instances are the collections
(the spec's Calendars) and get a backend check; the other elements are
Items and inherit `last_allowed`. -/

/-- A resolved resource: a Calendar collection carrying its owner
identity (`calendar.owner`, possibly absent), or an Item. -/
inductive Resource where
  | calendar (owner : Option String)
  | item (name : String)
deriving DecidableEq

/-- Whether a chain element is a Calendar (an `ical.DavItem` instance). -/
def Resource.isCalendar : Resource → Bool
  | .calendar _ => true
  | .item _ => false

/-- The chain-filtering loop of `Application.__call__`.  `acl o` models
`self.acl.has_right(calendar.owner, user, password)` for the request's
fixed credentials; the `Bool` argument is the running `last_allowed`. -/
def filterChain (acl : Option String → Bool) :
    List Resource → Bool → List Resource
  | [], _ => []
  | .item n :: rest, lastAllowed =>
      if lastAllowed then .item n :: filterChain acl rest lastAllowed
      else filterChain acl rest lastAllowed
  | .calendar o :: rest, _ =>
      if acl o then .calendar o :: filterChain acl rest true
      else filterChain acl rest false

/-- The gate as invoked: `last_allowed` starts false. -/
def authFilter (acl : Option String → Bool) (chain : List Resource) :
    List Resource :=
  filterChain acl chain false

/-- The value of `last_allowed` after traversing a chain segment,
starting from `b`. -/
def stateAfter (acl : Option String → Bool) :
    List Resource → Bool → Bool
  | [], b => b
  | .item _ :: rest, b => stateAfter acl rest b
  | .calendar o :: rest, _ => stateAfter acl rest (acl o)

/-- The owner of the last Calendar of a chain segment, if any. -/
def lastCalOwner : List Resource → Option (Option String)
  | [] => none
  | .calendar o :: rest => some ((lastCalOwner rest).getD o)
  | .item _ :: rest => lastCalOwner rest

/-- The filtering loop instrumented with the number of backend
(`has_right`) calls it makes. -/
def filterChainC (acl : Option String → Bool) :
    List Resource → Bool → List Resource × Nat
  | [], _ => ([], 0)
  | .item n :: rest, b =>
      let r := filterChainC acl rest b
      (if b then .item n :: r.1 else r.1, r.2)
  | .calendar o :: rest, _ =>
      let d := acl o
      let r := filterChainC acl rest d
      (if d then .calendar o :: r.1 else r.1, r.2 + 1)

theorem filterChain_append (acl : Option String → Bool)
    (l1 l2 : List Resource) (b : Bool) :
    filterChain acl (l1 ++ l2) b
      = filterChain acl l1 b ++ filterChain acl l2 (stateAfter acl l1 b) := by
  induction l1 generalizing b with
  | nil => rfl
  | cons r rest ih =>
      cases r with
      | item n =>
          simp only [List.cons_append, filterChain, stateAfter]
          by_cases hb : b <;> simp [hb, ih]
      | calendar o =>
          simp only [List.cons_append, filterChain, stateAfter]
          by_cases ho : acl o <;> simp [ho, ih]

theorem stateAfter_eq_lastCalOwner (acl : Option String → Bool)
    (l : List Resource) (b : Bool) :
    stateAfter acl l b = (lastCalOwner l).elim b acl := by
  induction l generalizing b with
  | nil => rfl
  | cons r rest ih =>
      cases r with
      | item n => simpa [stateAfter, lastCalOwner] using ih b
      | calendar o =>
          simp only [stateAfter, lastCalOwner, ih]
          cases lastCalOwner rest <;> simp

theorem filterChainC_spec (acl : Option String → Bool)
    (l : List Resource) (b : Bool) :
    (filterChainC acl l b).1 = filterChain acl l b
  ∧ (filterChainC acl l b).2 = (l.filter Resource.isCalendar).length := by
  induction l generalizing b with
  | nil => exact ⟨rfl, rfl⟩
  | cons r rest ih =>
      cases r with
      | item n =>
          constructor
          · by_cases hb : b <;>
              simp [filterChainC, filterChain, hb, (ih true).1, (ih false).1]
          · simpa [filterChainC, List.filter, Resource.isCalendar] using (ih b).2
      | calendar o =>
          constructor
          · by_cases ho : acl o <;>
              simp [filterChainC, filterChain, ho, (ih true).1, (ih false).1]
          · by_cases ho : acl o <;>
              simp [filterChainC, List.filter, Resource.isCalendar, ho,
                (ih true).2, (ih false).2]

/-- C4: authorization chaining.  For any chain `pre ++ item :: post`
processed with backend `acl` (the `last_allowed` flag starting false):
the Item is included iff the running decision after `pre` is true; that
decision equals the backend's verdict on the most recent preceding
Calendar's owner, and is false when no Calendar precedes (so Items
before any Calendar are excluded, and a denied Calendar excludes the
following Items until the next granted one); and the backend is called
exactly once per Calendar in the chain — never for an Item. -/
theorem C4_authorization_chaining (acl : Option String → Bool)
    (pre post : List Resource) (n : String) :
    authFilter acl (pre ++ .item n :: post)
      = authFilter acl pre
        ++ (if stateAfter acl pre false then [Resource.item n] else [])
        ++ filterChain acl post (stateAfter acl pre false)
  ∧ stateAfter acl pre false = (lastCalOwner pre).elim false acl
  ∧ (∀ chain : List Resource,
      (filterChainC acl chain false).1 = authFilter acl chain
    ∧ (filterChainC acl chain false).2
        = (chain.filter Resource.isCalendar).length) := by
  refine ⟨?_, stateAfter_eq_lastCalOwner acl pre false,
    fun chain => filterChainC_spec acl chain false⟩
  unfold authFilter
  rw [filterChain_append]
  by_cases h : stateAfter acl pre false <;> simp [h, filterChain]

/-! ## PROPPATCH (xmlutils.py lines 340-377)

```python
    props_to_set = props_from_request(root, actions=('set',))
    props_to_remove = props_from_request(root, actions=('remove',))
    ...
    with calendar.props as calendar_props:
        for short_name, value in props_to_set.items():
            if short_name == 'C:calendar-timezone':
                calendar.replace('', value)
                calendar.write()
            else:
                calendar_props[short_name] = value
            _add_propstat_to(response, short_name, 200)
        for short_name in props_to_remove:
            try:
                del calendar_props[short_name]
            except KeyError:
                _add_propstat_to(response, short_name, 412)
            else:
                _add_propstat_to(response, short_name, 200)
```
The propstat entries are modelled as `(tag, status)` pairs in response
order. -/

/-- Modelled from the spec: a Calendar's mutable state visible to
PROPPATCH — the scoped property store (namespaced key to text, an
insertion-ordered dictionary modelled as an association list with
distinct keys) and the embedded timezone component replaced by
`calendar.replace('', value)`. -/
structure PropCal where
  props : List (String × String)
  timezone : String
deriving DecidableEq

/-- Dictionary membership: `short_name in calendar_props`. -/
def hasProp (ps : List (String × String)) (k : String) : Bool :=
  ps.any (fun p => p.1 = k)

/-- Dictionary assignment `calendar_props[k] = v` (update keeps the
entry's position, a fresh key is appended, as for `OrderedDict`). -/
def setProp (ps : List (String × String)) (k v : String) :
    List (String × String) :=
  if hasProp ps k then ps.map (fun p => if p.1 = k then (k, v) else p)
  else ps ++ [(k, v)]

/-- Dictionary deletion `del calendar_props[k]`. -/
def delProp (ps : List (String × String)) (k : String) :
    List (String × String) :=
  ps.filter (fun p => p.1 ≠ k)

/-- The `set` loop: every entry reports 200; the timezone key replaces
the embedded timezone instead of touching the property store. -/
def setPhase : List (String × String) → PropCal → List (String × Nat) × PropCal
  | [], cal => ([], cal)
  | (k, v) :: rest, cal =>
      let cal2 := if k = "C:calendar-timezone" then { cal with timezone := v }
                  else { cal with props := setProp cal.props k v }
      let r := setPhase rest cal2
      ((k, 200) :: r.1, r.2)

/-- The `remove` loop: `del` succeeds (200) when the key is present,
raises `KeyError` (reported 412) when absent. -/
def removePhase : List String → PropCal → List (String × Nat) × PropCal
  | [], cal => ([], cal)
  | k :: rest, cal =>
      if hasProp cal.props k then
        let r := removePhase rest { cal with props := delProp cal.props k }
        ((k, 200) :: r.1, r.2)
      else
        let r := removePhase rest cal
        ((k, 412) :: r.1, r.2)

/-- `xmlutils.proppatch`, reduced to its state effect and the ordered
list of `(tag, status)` propstat entries of the single response. -/
def proppatch (toSet : List (String × String)) (toRemove : List String)
    (cal : PropCal) : List (String × Nat) × PropCal :=
  let s := setPhase toSet cal
  let r := removePhase toRemove s.2
  (s.1 ++ r.1, r.2)

theorem setPhase_statuses (l : List (String × String)) (cal : PropCal) :
    (setPhase l cal).1 = l.map (fun p => (p.1, 200)) := by
  induction l generalizing cal with
  | nil => rfl
  | cons p rest ih => cases p with | mk k v => simp [setPhase, ih]

theorem hasProp_delProp_ne (ps : List (String × String)) (k k2 : String)
    (h : k2 ≠ k) : hasProp (delProp ps k) k2 = hasProp ps k2 := by
  apply Bool.eq_iff_iff.mpr
  simp only [hasProp, delProp, List.any_eq_true, List.mem_filter,
    decide_eq_true_eq]
  constructor
  · rintro ⟨p, ⟨hp, hpk⟩, hp2⟩
    exact ⟨p, hp, hp2⟩
  · rintro ⟨p, hp, hp2⟩
    exact ⟨p, ⟨hp, by rw [hp2]; exact h⟩, hp2⟩

theorem hasProp_delProp_self (ps : List (String × String)) (k : String) :
    hasProp (delProp ps k) k = false := by
  apply Bool.eq_false_iff.mpr
  intro hcon
  rcases List.any_eq_true.mp hcon with ⟨p, hp, hpk⟩
  have h2 := (List.mem_filter.mp hp).2
  simp only [decide_eq_true_eq] at hpk h2
  exact h2 hpk

theorem removePhase_fst_cons_pos (k : String) (rest : List String)
    (cal : PropCal) (h : hasProp cal.props k = true) :
    (removePhase (k :: rest) cal).1
      = (k, 200) :: (removePhase rest
          { cal with props := delProp cal.props k }).1 := by
  simp [removePhase, h]

theorem removePhase_fst_cons_neg (k : String) (rest : List String)
    (cal : PropCal) (h : hasProp cal.props k = false) :
    (removePhase (k :: rest) cal).1
      = (k, 412) :: (removePhase rest cal).1 := by
  simp [removePhase, h]

theorem removePhase_snd_cons_pos (k : String) (rest : List String)
    (cal : PropCal) (h : hasProp cal.props k = true) :
    (removePhase (k :: rest) cal).2
      = (removePhase rest { cal with props := delProp cal.props k }).2 := by
  simp [removePhase, h]

theorem removePhase_snd_cons_neg (k : String) (rest : List String)
    (cal : PropCal) (h : hasProp cal.props k = false) :
    (removePhase (k :: rest) cal).2 = (removePhase rest cal).2 := by
  simp [removePhase, h]

theorem removePhase_absent (l : List String) (cal : PropCal) (k : String)
    (h : hasProp cal.props k = false) :
    hasProp (removePhase l cal).2.props k = false := by
  induction l generalizing cal with
  | nil => exact h
  | cons k2 rest ih =>
      by_cases h2 : hasProp cal.props k2
      · have hne : k ≠ k2 := fun he => by
          rw [he] at h; rw [h] at h2; cases h2
        rw [removePhase_snd_cons_pos k2 rest cal h2]
        exact ih _ (by rw [hasProp_delProp_ne _ _ _ hne]; exact h)
      · rw [removePhase_snd_cons_neg k2 rest cal (by simpa using h2)]
        exact ih _ h

theorem removePhase_removes (l : List String) (cal : PropCal) :
    ∀ k ∈ l, hasProp (removePhase l cal).2.props k = false := by
  induction l generalizing cal with
  | nil => intro k hk; cases hk
  | cons k2 rest ih =>
      intro k hk
      rcases List.mem_cons.mp hk with he | hm
      · subst he
        by_cases h2 : hasProp cal.props k
        · rw [removePhase_snd_cons_pos k rest cal h2]
          exact removePhase_absent rest _ k (hasProp_delProp_self _ _)
        · rw [removePhase_snd_cons_neg k rest cal (by simpa using h2)]
          exact removePhase_absent rest _ k (by simpa using h2)
      · by_cases h2 : hasProp cal.props k2
        · rw [removePhase_snd_cons_pos k2 rest cal h2]
          exact ih _ k hm
        · rw [removePhase_snd_cons_neg k2 rest cal (by simpa using h2)]
          exact ih _ k hm

theorem removePhase_nodup (l : List String) (cal : PropCal)
    (h : l.Nodup) :
    (removePhase l cal).1
      = l.map (fun k => (k, if hasProp cal.props k then 200 else 412)) := by
  induction l generalizing cal with
  | nil => rfl
  | cons k rest ih =>
      have hk : k ∉ rest := (List.nodup_cons.mp h).1
      have hrest : rest.Nodup := (List.nodup_cons.mp h).2
      by_cases h2 : hasProp cal.props k
      · rw [removePhase_fst_cons_pos k rest cal h2, List.map_cons, ih _ hrest]
        simp only [h2, if_true]
        refine congrArg _ (List.map_congr_left fun k2 hk2 => ?_)
        have hne : k2 ≠ k := fun he => hk (he ▸ hk2)
        rw [hasProp_delProp_ne _ _ _ hne]
      · rw [removePhase_fst_cons_neg k rest cal (by simpa using h2),
          List.map_cons, ih _ hrest]
        simp [h2]

/-- C7: PROPPATCH processes all `set` entries before all `remove`
entries; every set entry reports 200; a remove entry reports 200 and
deletes the property when it is present in the (already set-updated)
store, 412 when absent; every removed key is absent from the final
store; and when the remove keys are distinct their statuses are
independent: each is decided solely against the store as it stands
after the set phase. -/
theorem C7_proppatch (toSet : List (String × String)) (toRemove : List String)
    (cal : PropCal) :
    (proppatch toSet toRemove cal).1
      = toSet.map (fun p => (p.1, 200))
        ++ (removePhase toRemove (setPhase toSet cal).2).1
  ∧ (∀ k rest cal2, removePhase (k :: rest) cal2
      = if hasProp cal2.props k then
          ((k, 200) :: (removePhase rest
              { cal2 with props := delProp cal2.props k }).1,
            (removePhase rest { cal2 with props := delProp cal2.props k }).2)
        else ((k, 412) :: (removePhase rest cal2).1, (removePhase rest cal2).2))
  ∧ (∀ k ∈ toRemove, hasProp (proppatch toSet toRemove cal).2.props k = false)
  ∧ (toRemove.Nodup →
      (removePhase toRemove (setPhase toSet cal).2).1
        = toRemove.map (fun k =>
            (k, if hasProp (setPhase toSet cal).2.props k then 200 else 412))) := by
  refine ⟨?_, ?_, ?_, removePhase_nodup _ _⟩
  · simp [proppatch, setPhase_statuses]
  · intro k rest cal2
    by_cases h2 : hasProp cal2.props k <;> simp [removePhase, h2]
  · intro k hk
    exact removePhase_removes toRemove _ k hk

/-- Witness for C7 at concrete inputs: setting `a`, removing present
`b` and absent `zz` yields statuses 200, 200, 412 in request order. -/
theorem C7_witness :
    (proppatch [("a", "1")] ["b", "zz"] ⟨[("b", "x")], "tz"⟩).1
      = [("a", 200), ("b", 200), ("zz", 412)] := by
  have h := C7_proppatch [("a", "1")] ["b", "zz"] ⟨[("b", "x")], "tz"⟩
  rw [h.1, h.2.2.2 (by decide)]
  decide

/-! ## Item storage (external collaborator `radicale.ical`)

`radicale/ical.py` is not part of the protocol-engine sources; the
storage operations the handlers call are modelled from the spec's
storage-collaborator interface (spec section 6). -/

/-- Modelled from the spec: a stored Item has a name, unique within its
calendar, and a serialized body.  Its ETag is content-derived; theorems
take the derivation as an arbitrary function `etagFn` of the body. -/
structure StoredItem where
  name : String
  body : String
deriving DecidableEq

/-- Modelled from the spec: the Calendar state touched by the
conditional-write handlers — its local path, its Items in collection
order, and the collection-level ETag. -/
structure Cal where
  local_path : String
  items : List StoredItem
  etag : String
deriving DecidableEq

/-- Modelled from the spec: `getItem(calendar, name) -> Item|absent`,
first Item of the given name.  The handlers pass the result of
`name_from_path`; a `None` name matches no stored item because item
names are strings. -/
def get_item (cal : Cal) (name : Option String) : Option StoredItem :=
  name.bind fun n => cal.items.find? (fun it => it.name = n)

/-- Modelled from the spec: `calendar.replace(name, body)` overwrites
the named Item's body in place. -/
def replaceItem (cal : Cal) (n body : String) : Cal :=
  { cal with items := cal.items.map fun it =>
      if it.name = n then { it with body := body } else it }

/-- Modelled from the spec: `calendar.append(name, body)` adds a new
Item at the end. -/
def appendItem (cal : Cal) (n body : String) : Cal :=
  { cal with items := cal.items ++ [⟨n, body⟩] }

/-- Modelled from the spec: `calendar.remove(name)` deletes the named
Item(s); a `None` name names nothing. -/
def removeItem (cal : Cal) (name : Option String) : Cal :=
  match name with
  | none => cal
  | some n => { cal with items := cal.items.filter (fun it => it.name ≠ n) }

/-- `xmlutils.put` (xmlutils.py lines 380-388): replace when the name is
already among the calendar's item names, append otherwise.  When the
path addresses the whole collection (`name_from_path` is `None`) the
membership test is false and the source appends under a `None` name;
that storage behavior is unspecified, is modelled as a no-op and is not
exercised by any theorem. -/
def xmlPut (path ical_request : String) (cal : Cal) : Cal :=
  match name_from_path path cal.local_path with
  | none => cal
  | some n =>
      if (cal.items.map StoredItem.name).contains n then
        replaceItem cal n ical_request
      else appendItem cal n ical_request

/-- Python truthiness of an optional WSGI header value: an absent header
and a present-but-empty one are both falsy. -/
def truthyHeader : Option String → Bool
  | none => false
  | some s => !(s == "")

/-! ## `Application.put` (__init__.py lines 346-364)

```python
    item_name = xmlutils.name_from_path(environ["PATH_INFO"], calendar)
    item = calendar.get_item(item_name)
    if (not item and not environ.get("HTTP_IF_MATCH")) or (
        item and environ.get("HTTP_IF_MATCH", item.etag) == item.etag):
        xmlutils.put(environ["PATH_INFO"], content, calendar)
        status = client.CREATED
        headers["ETag"] = calendar.get_item(item_name).etag
    else:
        status = client.PRECONDITION_FAILED
``` -/

/-- The PUT precondition of __init__.py lines 352-353, as a function of
the looked-up item:
`(not item and not environ.get("HTTP_IF_MATCH")) or (item and
environ.get("HTTP_IF_MATCH", item.etag) == item.etag)`. -/
def putAllowed (etagFn : String → String) (ifMatch : Option String) :
    Option StoredItem → Bool
  | none => !truthyHeader ifMatch
  | some it => ifMatch.getD (etagFn it.body) == etagFn it.body

/-- `Application.put`: status, optional `ETag` response header, and the
calendar state after the request. -/
def putHandler (etagFn : String → String) (path : String)
    (ifMatch : Option String) (content : String) (cal : Cal) :
    Nat × Option String × Cal :=
  if putAllowed etagFn ifMatch
      (get_item cal (name_from_path path cal.local_path)) then
    (201,
      (get_item (xmlPut path content cal)
          (name_from_path path cal.local_path)).map
        (fun it => etagFn it.body),
      xmlPut path content cal)
  else
    (412, none, cal)

theorem contains_name_eq_isSome (items : List StoredItem) (n : String) :
    (items.map StoredItem.name).contains n
      = (items.find? (fun it => it.name = n)).isSome := by
  induction items with
  | nil => rfl
  | cons it rest ih =>
      simp only [List.map_cons, List.contains_cons, List.find?_cons]
      by_cases h : it.name = n
      · simp [h]
      · have h2 : (n == it.name) = false := by
          apply beq_eq_false_iff_ne.mpr
          exact fun he => h he.symm
        have h3 : (decide (it.name = n)) = false := by simp [h]
        rw [h2, h3]
        simpa using ih

theorem find_append_absent (items : List StoredItem) (n content : String)
    (h : items.find? (fun it => it.name = n) = none) :
    (items ++ [(⟨n, content⟩ : StoredItem)]).find? (fun it => it.name = n)
      = some ⟨n, content⟩ := by
  induction items with
  | nil => simp [List.find?_cons]
  | cons a rest ih =>
      rw [List.find?_cons] at h
      rw [List.cons_append, List.find?_cons]
      by_cases ha : a.name = n
      · rw [show (decide (a.name = n)) = true by simp [ha]] at h
        cases h
      · rw [show (decide (a.name = n)) = false by simp [ha]] at h ⊢
        exact ih h

theorem find_replace (items : List StoredItem) (n content : String)
    (it : StoredItem)
    (h : items.find? (fun i => i.name = n) = some it) :
    (items.map (fun i => if i.name = n then { i with body := content }
        else i)).find? (fun i => i.name = n) = some ⟨n, content⟩ := by
  induction items with
  | nil => cases h
  | cons a rest ih =>
      rw [List.find?_cons] at h
      rw [List.map_cons, List.find?_cons]
      by_cases ha : a.name = n
      · have hhead : (if a.name = n then ({ a with body := content } : StoredItem)
            else a) = ⟨n, content⟩ := by
          rw [if_pos ha]
          cases a
          simp_all
        rw [hhead, show (decide ((⟨n, content⟩ : StoredItem).name = n)) = true
          by simp]
      · have hhead : (if a.name = n then ({ a with body := content } : StoredItem)
            else a) = a := if_neg ha
        rw [show (decide (a.name = n)) = false by simp [ha]] at h
        rw [hhead, show (decide (a.name = n)) = false by simp [ha]]
        exact ih h

/-- C1 counterexample: with no stored item and an If-Match header
present with the empty value, the handler takes the create branch
(Python truthiness: `not environ.get("HTTP_IF_MATCH")` holds for the
empty string) and answers 201 with a storage mutation, where the claim
as stated requires 412 and no mutation. -/
theorem C1_counterexample :
    (putHandler (fun b => b ++ "-E") "/user/cal/new.ics" (some "")
        "BODY" ⟨"/user/cal", [], "ce"⟩).1 = 201
  ∧ (putHandler (fun b => b ++ "-E") "/user/cal/new.ics" (some "")
        "BODY" ⟨"/user/cal", [], "ce"⟩).2.2 ≠ ⟨"/user/cal", [], "ce"⟩ := by
  decide

/-- C1 (amended): the PUT conditional-write table, with "If-Match
present" meaning present with a non-empty value: when the target item
does not exist, a create happens iff If-Match is absent or empty (else
412 and no mutation); when it exists, it is overwritten iff If-Match is
absent or equal to its current ETag (else 412 and no mutation); every
successful create or overwrite answers 201 and carries the stored
item's new ETag in the ETag header. -/
theorem C1_put_conditional (etagFn : String → String)
    (path content : String) (ifMatch : Option String) (cal : Cal)
    (n : String) (hn : name_from_path path cal.local_path = some n) :
    (get_item cal (some n) = none → (ifMatch = none ∨ ifMatch = some "") →
      (putHandler etagFn path ifMatch content cal).1 = 201
      ∧ (putHandler etagFn path ifMatch content cal).2.2
          = appendItem cal n content
      ∧ get_item (putHandler etagFn path ifMatch content cal).2.2 (some n)
          = some ⟨n, content⟩
      ∧ (putHandler etagFn path ifMatch content cal).2.1
          = some (etagFn content))
  ∧ (∀ e, get_item cal (some n) = none → ifMatch = some e → e ≠ "" →
      putHandler etagFn path ifMatch content cal = (412, none, cal))
  ∧ (∀ it, get_item cal (some n) = some it →
      (ifMatch = none ∨ ifMatch = some (etagFn it.body)) →
      (putHandler etagFn path ifMatch content cal).1 = 201
      ∧ (putHandler etagFn path ifMatch content cal).2.2
          = replaceItem cal n content
      ∧ get_item (putHandler etagFn path ifMatch content cal).2.2 (some n)
          = some ⟨n, content⟩
      ∧ (putHandler etagFn path ifMatch content cal).2.1
          = some (etagFn content))
  ∧ (∀ it e, get_item cal (some n) = some it → ifMatch = some e →
      e ≠ etagFn it.body →
      putHandler etagFn path ifMatch content cal = (412, none, cal)) := by
  have hget : get_item cal (some n) = cal.items.find? (fun it => it.name = n) :=
    rfl
  refine ⟨?_, ?_, ?_, ?_⟩
  · intro hnone hif
    have hcont : (cal.items.map StoredItem.name).contains n = false := by
      rw [contains_name_eq_isSome, hget.symm, hnone]; rfl
    have hput : xmlPut path content cal = appendItem cal n content := by
      unfold xmlPut
      rw [hn]
      show (if (cal.items.map StoredItem.name).contains n = true then
          replaceItem cal n content else appendItem cal n content) = _
      rw [hcont]
      simp
    have hgi : get_item (appendItem cal n content) (some n)
        = some ⟨n, content⟩ := by
      unfold get_item appendItem
      simpa using find_append_absent cal.items n content (hget ▸ hnone)
    have hallow : putAllowed etagFn ifMatch none = true := by
      rcases hif with h | h <;> subst h <;> rfl
    have hres : putHandler etagFn path ifMatch content cal
        = (201, some (etagFn content), appendItem cal n content) := by
      unfold putHandler
      rw [hn, hnone, hallow, if_pos rfl, hput, hgi]
      rfl
    exact ⟨by rw [hres], by rw [hres], by rw [hres]; exact hgi, by rw [hres]⟩
  · intro e hnone hife hne
    have hallow : putAllowed etagFn (some e) none = false := by
      simp [putAllowed, truthyHeader, hne]
    unfold putHandler
    rw [hn, hnone, hife, hallow]
    simp
  · intro it hsome hif
    have hcont : (cal.items.map StoredItem.name).contains n = true := by
      rw [contains_name_eq_isSome, hget.symm, hsome]; rfl
    have hput : xmlPut path content cal = replaceItem cal n content := by
      unfold xmlPut
      rw [hn]
      show (if (cal.items.map StoredItem.name).contains n = true then
          replaceItem cal n content else appendItem cal n content) = _
      rw [hcont]
      simp
    have hgi : get_item (replaceItem cal n content) (some n)
        = some ⟨n, content⟩ := by
      unfold get_item replaceItem
      simpa using find_replace cal.items n content it (hget ▸ hsome)
    have hallow : putAllowed etagFn ifMatch (some it) = true := by
      rcases hif with h | h <;> subst h <;> simp [putAllowed]
    have hres : putHandler etagFn path ifMatch content cal
        = (201, some (etagFn content), replaceItem cal n content) := by
      unfold putHandler
      rw [hn, hsome, hallow, if_pos rfl, hput, hgi]
      rfl
    exact ⟨by rw [hres], by rw [hres], by rw [hres]; exact hgi, by rw [hres]⟩
  · intro it e hsome hife hne
    have hallow : putAllowed etagFn (some e) (some it) = false := by
      simp [putAllowed, hne]
    unfold putHandler
    rw [hn, hsome, hife, hallow]
    simp

/-- Witness for C1 at concrete inputs: a stale If-Match on an existing
item answers 412 and leaves the calendar unchanged. -/
theorem C1_put_witness :
    putHandler (fun b => b ++ "E") "/u/c/a.ics" (some "stale") "NEW"
        ⟨"/u/c", [⟨"a.ics", "OLD"⟩], "ce"⟩
      = (412, none, ⟨"/u/c", [⟨"a.ics", "OLD"⟩], "ce"⟩) := by
  exact (C1_put_conditional (fun b => b ++ "E") "/u/c/a.ics" "NEW"
      (some "stale") ⟨"/u/c", [⟨"a.ics", "OLD"⟩], "ce"⟩ "a.ics"
      (by decide)).2.2.2 ⟨"a.ics", "OLD"⟩ "stale" (by decide) rfl (by decide)

/-! ## DELETE (`Application.delete`, __init__.py lines 268-291, and
`xmlutils.delete`, xmlutils.py lines 151-173) -/

/-- An XML element as ElementTree exposes it: tag, optional text,
children in document order. -/
inductive Xml where
  | elem (tag : String) (text : Option String) (children : List Xml)

mutual

/-- The serialization of one element (the cosmetic indentation added by
`_pretty_xml` aside). -/
def renderElem : Xml → String
  | .elem tag text children =>
      "<" ++ tag ++ ">" ++ text.getD "" ++ renderList children
        ++ "</" ++ tag ++ ">"

/-- Serialization of a child list. -/
def renderList : List Xml → String
  | [] => ""
  | x :: xs => renderElem x ++ renderList xs

end

/-- `_pretty_xml` output shape: the XML declaration followed by the
document (indentation elided). -/
def renderXml (x : Xml) : String :=
  "<?xml version=\"1.0\"?>\n" ++ renderElem x

/-- Python `http.client.responses`, modelled from the standard library
for the code the DELETE answer uses. -/
def httpReason : Nat → String
  | 200 => "OK"
  | _ => ""

/-- `xmlutils._response`: `"HTTP/1.1 %i %s"`. -/
def responseLine (code : Nat) : String :=
  "HTTP/1.1 " ++ toString code ++ " " ++ httpReason code

/-- `xmlutils.delete`: remove the item named by the path from the
calendar and build the multistatus answer — one response holding the
request path as href and status `HTTP/1.1 200 OK`. -/
def xmlDelete (path : String) (cal : Cal) : Cal × Xml :=
  (removeItem cal (name_from_path path cal.local_path),
    .elem (tagOf "D" "multistatus") none
      [.elem (tagOf "D" "response") none
        [.elem (tagOf "D" "href") (some path) [],
         .elem (tagOf "D" "status") (some (responseLine 200)) []]])

/-- The item-branch precondition of `Application.delete`:
`item and environ.get("HTTP_IF_MATCH", item.etag) == item.etag`. -/
def deleteItemCond (etagFn : String → String) (ifMatch : Option String) :
    Option StoredItem → Bool
  | none => false
  | some it => ifMatch.getD (etagFn it.body) == etagFn it.body

/-- `Application.delete`: status, optional body, resulting state.
`isCollection` stands for `ical.DavItem.uri_is_collection(path,
"VCALENDAR")` (storage collaborator, modelled as a parameter) and
`depth` for the raw `Depth` header.  In the whole-collection branch the
source calls `xmlutils.delete_collection`, which xmlutils.py does not
define (the call would raise `AttributeError`); that branch is modelled
as returning the state unchanged with no body and is not exercised by
any theorem. -/
def deleteHandler (etagFn : String → String) (path : String)
    (ifMatch : Option String) (isCollection : Bool) (depth : Option String)
    (cal : Cal) : Nat × Option Xml × Cal :=
  if deleteItemCond etagFn ifMatch
      (get_item cal (name_from_path path cal.local_path)) then
    (204, some (xmlDelete path cal).2, (xmlDelete path cal).1)
  else if isCollection && ((depth.getD "infinity").toLower == "infinity") then
    if ifMatch.getD cal.etag == cal.etag then (204, none, cal)
    else (412, none, cal)
  else
    (412, none, cal)

theorem renderXml_ne_empty (x : Xml) : renderXml x ≠ "" := by
  intro h
  have h2 := congrArg String.length h
  rw [renderXml, String.length_append] at h2
  have hd : ("<?xml version=\"1.0\"?>\n").length = 22 := by decide
  have he : ("" : String).length = 0 := rfl
  rw [hd, he] at h2
  omega

/-- C10: a successful single-item DELETE (item present, ETag
precondition absent or matching) answers 204 No Content together with a
non-empty body: a multistatus document containing exactly one response
whose href is the request path and whose status line is
`HTTP/1.1 200 OK`; the item is removed from the calendar. -/
theorem C10_delete_success (etagFn : String → String) (path : String)
    (ifMatch : Option String) (isCollection : Bool) (depth : Option String)
    (cal : Cal) (it : StoredItem)
    (hit : get_item cal (name_from_path path cal.local_path) = some it)
    (hm : ifMatch = none ∨ ifMatch = some (etagFn it.body)) :
    (deleteHandler etagFn path ifMatch isCollection depth cal).1 = 204
  ∧ (deleteHandler etagFn path ifMatch isCollection depth cal).2.1
      = some (.elem (tagOf "D" "multistatus") none
          [.elem (tagOf "D" "response") none
            [.elem (tagOf "D" "href") (some path) [],
             .elem (tagOf "D" "status") (some "HTTP/1.1 200 OK") []]])
  ∧ (∀ x, (deleteHandler etagFn path ifMatch isCollection depth cal).2.1
        = some x → renderXml x ≠ "")
  ∧ (deleteHandler etagFn path ifMatch isCollection depth cal).2.2
      = removeItem cal (name_from_path path cal.local_path) := by
  have hcond : deleteItemCond etagFn ifMatch
      (get_item cal (name_from_path path cal.local_path)) = true := by
    rw [hit]
    rcases hm with h | h <;> subst h <;> simp [deleteItemCond]
  have hresp : responseLine 200 = "HTTP/1.1 200 OK" := by decide
  have hres : deleteHandler etagFn path ifMatch isCollection depth cal
      = (204, some (xmlDelete path cal).2,
          removeItem cal (name_from_path path cal.local_path)) := by
    unfold deleteHandler
    rw [hcond, if_pos rfl]
    rfl
  refine ⟨by rw [hres], ?_, ?_, by rw [hres]⟩
  · rw [hres]
    show some _ = some _
    unfold xmlDelete
    rw [hresp]
  · intro x hx
    exact fun h => renderXml_ne_empty x h

/-- Witness for C10 at concrete inputs: deleting an existing item with
no If-Match header gives 204 and the one-response multistatus body. -/
theorem C10_delete_witness :
    (deleteHandler (fun b => b ++ "E") "/u/c/a.ics" none false none
        ⟨"/u/c", [⟨"a.ics", "OLD"⟩], "ce"⟩).1 = 204
  ∧ (deleteHandler (fun b => b ++ "E") "/u/c/a.ics" none false none
        ⟨"/u/c", [⟨"a.ics", "OLD"⟩], "ce"⟩).2.1
      = some (.elem (tagOf "D" "multistatus") none
          [.elem (tagOf "D" "response") none
            [.elem (tagOf "D" "href") (some "/u/c/a.ics") [],
             .elem (tagOf "D" "status") (some "HTTP/1.1 200 OK") []]]) := by
  have h := C10_delete_success (fun b => b ++ "E") "/u/c/a.ics" none false
      none ⟨"/u/c", [⟨"a.ics", "OLD"⟩], "ce"⟩ ⟨"a.ics", "OLD"⟩
      (by decide) (Or.inl rfl)
  exact ⟨h.1, h.2.1⟩

/-! ## Timestamps

The engine compares and adds `datetime` values and formats them with
`strftime("%Y%m%dT%H%M%SZ")`.  A UTC timestamp is embedded as the number
of seconds since 0001-01-01T00:00:00 (proleptic Gregorian); conversion
to and from civil dates uses the standard era-based algorithms. -/

/-- Days from 0001-01-01 to the given civil date. -/
def daysFromCivil (y m d : Nat) : Nat :=
  let y2 := if m ≤ 2 then y - 1 else y
  let era := y2 / 400
  let yoe := y2 % 400
  let mp := if m > 2 then m - 3 else m + 9
  let doy := (153 * mp + 2) / 5 + (d - 1)
  let doe := yoe * 365 + yoe / 4 - yoe / 100 + doy
  era * 146097 + doe - 306

/-- Civil date from a day count (inverse of `daysFromCivil`). -/
def civilFromDays (z0 : Nat) : Nat × Nat × Nat :=
  let z := z0 + 306
  let era := z / 146097
  let doe := z % 146097
  let yoe := (doe - doe / 1460 + doe / 36524 - doe / 146096) / 365
  let y := yoe + era * 400
  let doy := doe - (365 * yoe + yoe / 4 - yoe / 100)
  let mp := (5 * doy + 2) / 153
  let d := doy - (153 * mp + 2) / 5 + 1
  let m := if mp < 10 then mp + 3 else mp - 9
  (if m ≤ 2 then y + 1 else y, m, d)

/-- The timestamp of a UTC civil datetime. -/
def mkDT (y m d h mi s : Nat) : Nat :=
  daysFromCivil y m d * 86400 + h * 3600 + mi * 60 + s

/-- Two decimal digits with leading zero. -/
def pad2 (n : Nat) : String := toString (n / 10 % 10) ++ toString (n % 10)

/-- Four decimal digits with leading zeros. -/
def pad4 (n : Nat) : String :=
  toString (n / 1000 % 10) ++ toString (n / 100 % 10)
    ++ toString (n / 10 % 10) ++ toString (n % 10)

/-- `dt.strftime("%Y%m%dT%H%M%SZ")`. -/
def fmtCompact (t : Nat) : String :=
  let c := civilFromDays (t / 86400)
  let rem := t % 86400
  pad4 c.1 ++ pad2 c.2.1 ++ pad2 c.2.2 ++ "T"
    ++ pad2 (rem / 3600) ++ pad2 (rem % 3600 / 60) ++ pad2 (rem % 60) ++ "Z"

/-! ## REPORT query and recurrence engine (xmlutils.py lines 391-522) -/

/-- Modelled from the spec: the attributes of a calendar item the REPORT
engine reads.  `text` is the serialized body as its list of lines;
`dtstart`/`dtend` are the timestamps `ical.Event` parses from it;
`rrule` is the parsed recurrence rule — here the `FREQ=DAILY;COUNT=n`
family the expansion scenario uses, carried as its count, with dateutil
occurrence generation modelled below. -/
structure REvent where
  name : String
  text : List String
  dtstart : Nat
  dtend : Nat
  rrule : Option Nat
deriving DecidableEq

/-- Modelled from dateutil's `rrulestr`: the occurrence start times of
`FREQ=DAILY;COUNT=count` anchored at `dtstart` — consecutive days. -/
def rruleOccurrences (dtstart count : Nat) : List Nat :=
  (List.range count).map (fun k => dtstart + k * 86400)

/-- Whether `line` starts with `p`, on the character level (the form of
a Python regex match anchored at the line start). -/
def lineStarts (p line : String) : Bool := p.data.isPrefixOf line.data

/-- `re.sub(r"RRULE:.*\n", r"RECURRENCE-ID:<stamp>\n", text)` on a
line-structured body whose property names start their lines (as
iCalendar serialization guarantees): every RRULE line becomes a
RECURRENCE-ID line carrying `stamp`. -/
def subRRuleToRecurrenceId (stamp : String) (text : List String) :
    List String :=
  text.map fun line =>
    if lineStarts "RRULE:" line then "RECURRENCE-ID:" ++ stamp else line

/-- `re.sub(r"SUMMARY:(.*)\n", r"SUMMARY:\1 (#%d)\n" % label, text)`:
suffix every SUMMARY line with ` (#label)`. -/
def subSummarySuffix (label : Nat) (text : List String) : List String :=
  text.map fun line =>
    if lineStarts "SUMMARY:" line then line ++ " (#" ++ toString label ++ ")"
    else line

/-- `re.sub(r"RRULE:.*\n", "", text)`: drop every RRULE line. -/
def removeRRuleLines (text : List String) : List String :=
  text.filter fun line => !(lineStarts "RRULE:" line)

/-- `re.sub(r"DTSTART:.*\n", "DTSTART:%s\n" % stamp, text)`. -/
def subDtstart (stamp : String) (text : List String) : List String :=
  text.map fun line =>
    if lineStarts "DTSTART:" line then "DTSTART:" ++ stamp else line

/-- `re.sub(r"DTEND:.*\n", "DTEND:%s\n" % stamp, text)`. -/
def subDtend (stamp : String) (text : List String) : List String :=
  text.map fun line =>
    if lineStarts "DTEND:" line then "DTEND:" ++ stamp else line

/-- The body built for the occurrence with kept-index `i` starting at
`dt` (xmlutils.py lines 463-482): for `i > 0` the RRULE line becomes a
RECURRENCE-ID valued at the original item start and the SUMMARY gains a
`(#i+1)` suffix; unless limit-recurrence-set is set, RRULE lines are
removed; DTSTART/DTEND are rewritten to the occurrence's bounds. -/
def occurrenceText (item : REvent) (i : Nat) (lrs : Bool) (dt : Nat) :
    List String :=
  let text := item.text
  let text :=
    if i > 0 then
      subSummarySuffix (i + 1)
        (subRRuleToRecurrenceId (fmtCompact item.dtstart) text)
    else text
  let text := if !lrs then removeRRuleLines text else text
  subDtend (fmtCompact (dt + (item.dtend - item.dtstart)))
    (subDtstart (fmtCompact dt) text)

/-- Modelled from the spec: `ical.Event(text, item.name)` re-parses the
body, so the synthesized item carries the occurrence's timestamps and a
recurrence rule only if the RRULE line survived. -/
def occurrenceItem (item : REvent) (i : Nat) (lrs : Bool) (dt : Nat) :
    REvent :=
  { name := item.name
    text := occurrenceText item i lrs dt
    dtstart := dt
    dtend := dt + (item.dtend - item.dtstart)
    rrule := if lrs then item.rrule else none }

/-- The occurrence guard `not start or dtstart > start`. -/
def keepOcc : Option Nat → Nat → Bool
  | none, _ => true
  | some s, dt => s < dt

/-- The no-rrule filter
`(not start or start < item.dtstart) and (not end or end > item.dtstart)`. -/
def keepItem (start endB : Option Nat) (it : REvent) : Bool :=
  (match start with | none => true | some s => s < it.dtstart)
    && (match endB with | none => true | some e => it.dtstart < e)

/-- The per-item expansion loop (xmlutils.py lines 456-483) over the
occurrence starts not yet past the end bound; `k` counts the kept
occurrences so far (the source's `i` after its increment). -/
def expandLoop (item : REvent) (start : Option Nat) (lrs : Bool) :
    List Nat → Nat → List REvent
  | [], _ => []
  | dt :: rest, k =>
      if keepOcc start dt then
        occurrenceItem item k lrs dt :: expandLoop item start lrs rest (k + 1)
      else expandLoop item start lrs rest k

/-- The `new_items` computation for one href (lines 451-488): items with
a recurrence rule *and* an end bound are expanded (`if item.rrule and
end:`), all others pass through the open-interval filter. -/
def expandPhase (start endB : Option Nat) (lrs : Bool)
    (items : List REvent) : List REvent :=
  items.flatMap fun it =>
    match it.rrule, endB with
    | some count, some e =>
        expandLoop it start lrs
          ((rruleOccurrences it.dtstart count).takeWhile (· < e)) 0
    | _, _ => if keepItem start endB it then [it] else []

/-- Item order by start time, the key of
`sorted(new_items, key=lambda item: item.dtstart)`. -/
def startLE (a b : REvent) : Prop := a.dtstart ≤ b.dtstart

instance : DecidableRel startLE := fun a b => Nat.decLe a.dtstart b.dtstart

instance : IsTotal REvent startLE := ⟨fun a b => Nat.le_total a.dtstart b.dtstart⟩

instance : IsTrans REvent startLE := ⟨fun _ _ _ => Nat.le_trans⟩

/-- Model of Python's `sorted` by start time: a stable ascending sort
(the output of any stable ascending sort is unique, so insertion sort
embeds `sorted` faithfully). -/
def sortByStart (l : List REvent) : List REvent :=
  List.insertionSort startLE l

/-- The items answered for one href, in response order (xmlutils.py
lines 439-492 and the response loop 494-520, which emits exactly one
response per item).  `isItemRef` tells whether the href named a single
item: in that case the source's `items` is a generator that the
expansion loop consumes when `expand` is set, so when `new_items` ends
up empty nothing is emitted; a collection href's `calendar.components`
list is re-iterable. -/
def hrefBlock (expand lrs : Bool) (start endB : Option Nat)
    (isItemRef : Bool) (items : List REvent) : List REvent :=
  if expand then
    let newItems := expandPhase start endB lrs items
    if newItems.length > 0 then sortByStart newItems
    else if isItemRef then [] else items
  else items

/-- A whole REPORT run over its hrefs: per-href blocks concatenated in
iteration order. -/
def reportItems (expand lrs : Bool) (start endB : Option Nat)
    (hrefs : List (Bool × List REvent)) : List REvent :=
  hrefs.flatMap fun h => hrefBlock expand lrs start endB h.1 h.2

theorem orderedInsert_filter_key (x : REvent) (l : List REvent) (k : Nat) :
    (List.orderedInsert startLE x l).filter (fun it => it.dtstart = k)
      = if x.dtstart = k then
          x :: l.filter (fun it => it.dtstart = k)
        else l.filter (fun it => it.dtstart = k) := by
  induction l with
  | nil =>
      by_cases hk : x.dtstart = k <;>
        simp [List.orderedInsert, List.filter_cons, hk]
  | cons y ys ih =>
      simp only [List.orderedInsert]
      by_cases hr : startLE x y
      · rw [if_pos hr]
        by_cases hk : x.dtstart = k <;>
          simp [List.filter_cons, hk]
      · rw [if_neg hr]
        have hr2 : ¬ x.dtstart ≤ y.dtstart := hr
        have hyx : y.dtstart < x.dtstart := Nat.lt_of_not_le hr2
        by_cases hk : x.dtstart = k
        · have hy : ¬ y.dtstart = k := fun hy => by
            rw [hk] at hyx
            rw [hy] at hyx
            exact Nat.lt_irrefl _ hyx
          simp [List.filter_cons, hy, hk, ih]
        · by_cases hy : y.dtstart = k <;>
            simp [List.filter_cons, hy, hk, ih]

theorem sortByStart_stable_filter (l : List REvent) (k : Nat) :
    (sortByStart l).filter (fun it => it.dtstart = k)
      = l.filter (fun it => it.dtstart = k) := by
  induction l with
  | nil => rfl
  | cons x xs ih =>
      unfold sortByStart at ih ⊢
      simp only [List.insertionSort]
      rw [orderedInsert_filter_key]
      by_cases hk : x.dtstart = k <;>
        simp [List.filter_cons, hk, ih]

/-- C2 counterexample: with the expand flag false the time-range filter
never runs — a candidate item starting before the start bound is still
answered, although the claimed keep rule excludes it (its start is not
strictly inside the open interval). -/
theorem C2_counterexample :
    reportItems false false (some 50) none
        [(false, [⟨"e", ["X"], 10, 20, none⟩])]
      = [⟨"e", ["X"], 10, 20, none⟩]
  ∧ keepItem (some 50) none ⟨"e", ["X"], 10, 20, none⟩ = false := by
  decide

/-- C2 (amended): the open-interval keep rule
`(!start || start < item.start) && (!end || end > item.start)` is
applied only inside the expansion pass: with the expand flag false every
candidate item is answered unfiltered; with expand true it decides
exactly the items that are not expanded (no recurrence rule, or no end
bound given). -/
theorem C2_report_filter (expand lrs : Bool) (start endB : Option Nat)
    (isItemRef : Bool) (items : List REvent) :
    (expand = false → hrefBlock expand lrs start endB isItemRef items = items)
  ∧ ((∀ it ∈ items, it.rrule = none ∨ endB = none) →
      expandPhase start endB lrs items
        = items.filter (keepItem start endB)) := by
  constructor
  · intro h
    subst h
    rfl
  · intro h
    induction items with
    | nil => rfl
    | cons it rest ih =>
        have hit := h it (List.mem_cons_self it rest)
        have hrest : ∀ x ∈ rest, x.rrule = none ∨ endB = none :=
          fun x hx => h x (List.mem_cons_of_mem _ hx)
        have harm : expandPhase start endB lrs (it :: rest)
            = (if keepItem start endB it then [it] else [])
              ++ expandPhase start endB lrs rest := by
          unfold expandPhase
          rw [List.flatMap_cons]
          rcases hit with h1 | h1
          · rw [h1]
          · rw [h1]
            all_goals cases it.rrule <;> rfl
        rw [harm, ih hrest, List.filter_cons]
        by_cases hkeep : keepItem start endB it = true <;> simp [hkeep]

/-- Witness for C2 at concrete inputs: with expand true and a start
bound of 5, the rule-free item starting at 10 is kept and the one
starting at 3 is dropped. -/
theorem C2_report_filter_witness :
    expandPhase (some 5) (some 100) false
        [⟨"a", [], 10, 11, none⟩, ⟨"b", [], 3, 4, none⟩]
      = [⟨"a", [], 10, 11, none⟩] := by
  have h := (C2_report_filter true false (some 5) (some 100) false
      [⟨"a", [], 10, 11, none⟩, ⟨"b", [], 3, 4, none⟩]).2 (by decide)
  rw [h]
  decide

/-- C8 counterexample: a REPORT without expansion answers the items in
collection order — here start times 20 then 10 — not sorted ascending
by start time as claimed. -/
theorem C8_counterexample :
    reportItems false false none none
        [(false, [⟨"b", [], 20, 21, none⟩, ⟨"a", [], 10, 11, none⟩])]
      = [⟨"b", [], 20, 21, none⟩, ⟨"a", [], 10, 11, none⟩]
  ∧ (reportItems false false none none
        [(false, [⟨"b", [], 20, 21, none⟩, ⟨"a", [], 10, 11, none⟩])]).map
          REvent.dtstart = [20, 10]
  ∧ ¬ (20 : Nat) ≤ 10 := by
  decide

/-- C8 (amended): responses are emitted per href, hrefs concatenated in
iteration order with no global sort; within one href the items are
sorted by start time ascending (stable on ties) exactly when the expand
flag is set and the expansion produced at least one item; otherwise the
href's candidates keep their collection order. -/
theorem C8_report_order (expand lrs : Bool) (start endB : Option Nat)
    (hrefs : List (Bool × List REvent)) :
    reportItems expand lrs start endB hrefs
      = hrefs.flatMap (fun h => hrefBlock expand lrs start endB h.1 h.2)
  ∧ (∀ (isItemRef : Bool) (items : List REvent), expand = false →
      hrefBlock expand lrs start endB isItemRef items = items)
  ∧ (∀ (isItemRef : Bool) (items : List REvent), expand = true →
      expandPhase start endB lrs items ≠ [] →
        hrefBlock expand lrs start endB isItemRef items
            = sortByStart (expandPhase start endB lrs items)
        ∧ List.Sorted startLE
            (hrefBlock expand lrs start endB isItemRef items)
        ∧ List.Perm (hrefBlock expand lrs start endB isItemRef items)
            (expandPhase start endB lrs items)
        ∧ ∀ k, (hrefBlock expand lrs start endB isItemRef items).filter
              (fun it => it.dtstart = k)
            = (expandPhase start endB lrs items).filter
              (fun it => it.dtstart = k)) := by
  refine ⟨rfl, ?_, ?_⟩
  · intro ref items h
    subst h
    rfl
  · intro ref items hexp hne
    subst hexp
    have hb : hrefBlock true lrs start endB ref items
        = sortByStart (expandPhase start endB lrs items) := by
      unfold hrefBlock
      have hpos : (expandPhase start endB lrs items).length > 0 :=
        List.length_pos.mpr hne
      simp [hpos]
    refine ⟨hb, ?_, ?_, ?_⟩
    · rw [hb]
      exact List.sorted_insertionSort startLE _
    · rw [hb]
      exact List.perm_insertionSort startLE _
    · intro k
      rw [hb]
      exact sortByStart_stable_filter _ k

/-- Witness for C8 at concrete inputs: expansion kept three rule-free
items; the block is sorted ascending with the tie (starts 30 and 30)
kept in original relative order. -/
theorem C8_report_order_witness :
    hrefBlock true false none none false
        [⟨"x", [], 30, 31, none⟩, ⟨"y", [], 10, 11, none⟩,
         ⟨"z", [], 30, 32, none⟩]
      = [⟨"y", [], 10, 11, none⟩, ⟨"x", [], 30, 31, none⟩,
         ⟨"z", [], 30, 32, none⟩] := by
  have h := (C8_report_order true false none none
      [(false, [⟨"x", [], 30, 31, none⟩, ⟨"y", [], 10, 11, none⟩,
        ⟨"z", [], 30, 32, none⟩])]).2.2 false
      [⟨"x", [], 30, 31, none⟩, ⟨"y", [], 10, 11, none⟩,
       ⟨"z", [], 30, 32, none⟩] rfl (by decide)
  rw [h.1]
  decide

/-! ## The REPORT expansion scenario (claim C3) -/

/-- The scenario item: DTSTART 2020-01-01T10:00:00Z, one-hour duration,
`RRULE:FREQ=DAILY;COUNT=5`. -/
def expandScene : REvent :=
  { name := "r.ics"
    text := ["BEGIN:VEVENT",
             "UID:r",
             "DTSTART:20200101T100000Z",
             "DTEND:20200101T110000Z",
             "SUMMARY:Event",
             "RRULE:FREQ=DAILY;COUNT=5",
             "END:VEVENT"]
    dtstart := mkDT 2020 1 1 10 0 0
    dtend := mkDT 2020 1 1 11 0 0
    rrule := some 5 }

/-- The scenario run: expand set, limit-recurrence-set unset, no start
bound, end bound 2020-01-04T00:00:00Z, one collection href holding the
item. -/
def expandRun : List REvent :=
  reportItems true false none (some (mkDT 2020 1 4 0 0 0))
    [(false, [expandScene])]

/-- C3 counterexample: the scenario does answer three items, but the
index-0 occurrence is not kept unmodified — its RRULE line is removed
(and DTSTART/DTEND are rewritten, here to identical values). -/
theorem C3_counterexample :
    expandRun.length = 3
  ∧ (expandRun.headD expandScene).text ≠ expandScene.text
  ∧ (expandRun.headD expandScene).text
      = ["BEGIN:VEVENT",
         "UID:r",
         "DTSTART:20200101T100000Z",
         "DTEND:20200101T110000Z",
         "SUMMARY:Event",
         "END:VEVENT"] := by
  decide

/-- C3 (amended): the scenario yields exactly 3 response items sorted
ascending by start: the index-0 occurrence with its RRULE line removed
and DTSTART/DTEND rewritten to identical values (no RECURRENCE-ID, no
SUMMARY suffix), plus synthesized occurrences for Jan 2 and Jan 3 whose
RRULE line became a RECURRENCE-ID valued at the original start
`20200101T100000Z`, SUMMARY suffixed `(#2)` and `(#3)`, and
DTSTART/DTEND rewritten to the occurrence start and start plus the
original one-hour duration. -/
theorem C3_expansion :
    expandRun
      = [{ name := "r.ics"
           text := ["BEGIN:VEVENT",
                    "UID:r",
                    "DTSTART:20200101T100000Z",
                    "DTEND:20200101T110000Z",
                    "SUMMARY:Event",
                    "END:VEVENT"]
           dtstart := mkDT 2020 1 1 10 0 0
           dtend := mkDT 2020 1 1 11 0 0
           rrule := none },
         { name := "r.ics"
           text := ["BEGIN:VEVENT",
                    "UID:r",
                    "DTSTART:20200102T100000Z",
                    "DTEND:20200102T110000Z",
                    "SUMMARY:Event (#2)",
                    "RECURRENCE-ID:20200101T100000Z",
                    "END:VEVENT"]
           dtstart := mkDT 2020 1 2 10 0 0
           dtend := mkDT 2020 1 2 11 0 0
           rrule := none },
         { name := "r.ics"
           text := ["BEGIN:VEVENT",
                    "UID:r",
                    "DTSTART:20200103T100000Z",
                    "DTEND:20200103T110000Z",
                    "SUMMARY:Event (#3)",
                    "RECURRENCE-ID:20200101T100000Z",
                    "END:VEVENT"]
           dtstart := mkDT 2020 1 3 10 0 0
           dtend := mkDT 2020 1 3 11 0 0
           rrule := none }] := by
  decide

/-! ## Path sanitization (`Application.sanitize_uri`, __init__.py 143-147)

```python
    @staticmethod
    def sanitize_uri(uri):
        uri = posixpath.normpath(urllib.unquote(uri))
        return uri
```
`urllib.unquote` decodes `%XX` pairs (anything else, a lone `%`
included, passes through); `posixpath.normpath` is the standard
component-normalization:

```python
def normpath(path):
    if path == '': return '.'
    initial_slashes = path.startswith('/')
    if (initial_slashes and path.startswith('//')
            and not path.startswith('///')):
        initial_slashes = 2
    comps = path.split('/')
    new_comps = []
    for comp in comps:
        if comp in ('', '.'): continue
        if (comp != '..' or (not initial_slashes and not new_comps) or
             (new_comps and new_comps[-1] == '..')):
            new_comps.append(comp)
        elif new_comps:
            new_comps.pop()
    comps = new_comps
    path = '/'.join(comps)
    if initial_slashes:
        path = '/'*initial_slashes + path
    return path or '.'
``` -/

/-- The value of a hexadecimal digit character. -/
def hexVal (c : Char) : Option Nat :=
  if '0' ≤ c ∧ c ≤ '9' then some (c.toNat - '0'.toNat)
  else if 'a' ≤ c ∧ c ≤ 'f' then some (c.toNat - 'a'.toNat + 10)
  else if 'A' ≤ c ∧ c ≤ 'F' then some (c.toNat - 'A'.toNat + 10)
  else none

/-- `urllib.unquote` on characters: each `%` followed by two hex digits
becomes the encoded byte's character; a `%` not followed by two hex
digits stays literal. -/
def unquoteL : List Char → List Char
  | [] => []
  | c :: rest =>
      if c = '%' then
        match rest with
        | [] => ['%']
        | [a] => ['%', a]
        | a :: b :: rest2 =>
            match hexVal a, hexVal b with
            | some x, some y => Char.ofNat (16 * x + y) :: unquoteL rest2
            | _, _ => '%' :: unquoteL (a :: b :: rest2)
      else c :: unquoteL rest

/-- The `..` path component. -/
def dotdot : List Char := ['.', '.']

/-- `initial_slashes` of `posixpath.normpath`: 2 for a double (but not
triple) leading slash, 1 for any other absolute path, else 0. -/
def initialSlashes (p : List Char) : Nat :=
  if p.head? = some '/' then
    if p.take 2 = ['/', '/'] ∧ ¬ p.take 3 = ['/', '/', '/'] then 2 else 1
  else 0

/-- The component loop of `posixpath.normpath`; `revAcc` is the
reversed `new_comps` accumulator, so `append` is cons and `pop` is
tail. -/
def normLoop (slashes : Nat) :
    List (List Char) → List (List Char) → List (List Char)
  | revAcc, [] => revAcc
  | revAcc, c :: rest =>
      if c = [] ∨ c = ['.'] then normLoop slashes revAcc rest
      else if c ≠ dotdot ∨ (slashes = 0 ∧ revAcc = [])
          ∨ revAcc.head? = some dotdot then
        normLoop slashes (c :: revAcc) rest
      else if revAcc ≠ [] then normLoop slashes revAcc.tail rest
      else normLoop slashes revAcc rest

/-- `posixpath.normpath` on characters. -/
def normpathL (p : List Char) : List Char :=
  if p = [] then ['.']
  else
    let slashes := initialSlashes p
    let comps := (normLoop slashes [] (splitSlash p)).reverse
    let res := List.replicate slashes '/' ++ joinSlash comps
    if res = [] then ['.'] else res

/-- `Application.sanitize_uri`:
`posixpath.normpath(urllib.unquote(uri))`. -/
def sanitize_uri (uri : String) : String :=
  String.mk (normpathL (unquoteL uri.data))

/-- Whether a path string contains a `..` segment. -/
def hasDotdotSeg (p : List Char) : Bool :=
  decide (dotdot ∈ splitSlash p)

/-- C5 counterexample: sanitization is not idempotent — a doubly
percent-encoded `..` decodes one level per pass, so the second pass
changes the path again — and a relative path keeps its leading `..`
segment. -/
theorem C5_counterexample :
    sanitize_uri "/%252e%252e/a" = "/%2e%2e/a"
  ∧ sanitize_uri (sanitize_uri "/%252e%252e/a") = "/a"
  ∧ sanitize_uri (sanitize_uri "/%252e%252e/a") ≠ sanitize_uri "/%252e%252e/a"
  ∧ sanitize_uri "../a" = "../a"
  ∧ hasDotdotSeg (sanitize_uri "../a").data = true := by
  decide

theorem splitSlash_ne_nil (p : List Char) : splitSlash p ≠ [] := by
  cases p with
  | nil => simp [splitSlash]
  | cons c rest =>
      unfold splitSlash
      by_cases h : c = '/'
      · simp [h]
      · rw [if_neg h]
        cases hs : splitSlash rest <;> simp

theorem splitSlash_no_slash (p : List Char) :
    ∀ c ∈ splitSlash p, ¬ '/' ∈ c := by
  induction p with
  | nil =>
      intro c hc
      rw [splitSlash] at hc
      simp at hc
      simp [hc]
  | cons x rest ih =>
      intro c hc
      unfold splitSlash at hc
      by_cases h : x = '/'
      · rw [if_pos h] at hc
        rcases List.mem_cons.mp hc with he | hm
        · simp [he]
        · exact ih c hm
      · rw [if_neg h] at hc
        cases hs : splitSlash rest with
        | nil => exact absurd hs (splitSlash_ne_nil rest)
        | cons s ss =>
            rw [hs] at hc
            rcases List.mem_cons.mp hc with he | hm
            · subst he
              intro hsl
              rcases List.mem_cons.mp hsl with he2 | hm2
              · exact h he2.symm
              · exact ih s (by rw [hs]; exact List.mem_cons_self s ss) hm2
            · exact ih c (by rw [hs]; exact List.mem_cons_of_mem _ hm)

theorem splitSlash_subset (p : List Char) :
    ∀ c ∈ splitSlash p, ∀ x ∈ c, x ∈ p := by
  induction p with
  | nil =>
      intro c hc
      rw [splitSlash] at hc
      simp at hc
      simp [hc]
  | cons y rest ih =>
      intro c hc x hx
      unfold splitSlash at hc
      by_cases h : y = '/'
      · rw [if_pos h] at hc
        rcases List.mem_cons.mp hc with he | hm
        · subst he; cases hx
        · exact List.mem_cons_of_mem _ (ih c hm x hx)
      · rw [if_neg h] at hc
        cases hs : splitSlash rest with
        | nil => exact absurd hs (splitSlash_ne_nil rest)
        | cons s ss =>
            rw [hs] at hc
            rcases List.mem_cons.mp hc with he | hm
            · subst he
              rcases List.mem_cons.mp hx with he2 | hm2
              · exact he2 ▸ List.mem_cons_self y rest
              · refine List.mem_cons_of_mem _
                  (ih s (by rw [hs]; exact List.mem_cons_self s ss) x hm2)
            · exact List.mem_cons_of_mem _
                (ih c (by rw [hs]; exact List.mem_cons_of_mem _ hm) x hx)

theorem joinSlash_cons (c : List Char) (rest : List (List Char))
    (h : rest ≠ []) :
    joinSlash (c :: rest) = c ++ '/' :: joinSlash rest := by
  cases rest with
  | nil => cases h rfl
  | cons d ds => rfl

theorem joinSlash_chars (comps : List (List Char)) :
    ∀ x ∈ joinSlash comps, x = '/' ∨ ∃ c ∈ comps, x ∈ c := by
  induction comps with
  | nil => intro x hx; cases hx
  | cons c rest ih =>
      cases rest with
      | nil =>
          intro x hx
          exact Or.inr ⟨c, List.mem_cons_self c [], hx⟩
      | cons d ds =>
          intro x hx
          rw [joinSlash_cons c (d :: ds) (by simp)] at hx
          rcases List.mem_append.mp hx with hm | hm
          · exact Or.inr ⟨c, List.mem_cons_self c _, hm⟩
          · rcases List.mem_cons.mp hm with he | hm2
            · exact Or.inl he
            · rcases ih x hm2 with h1 | ⟨e, he, hxe⟩
              · exact Or.inl h1
              · exact Or.inr ⟨e, List.mem_cons_of_mem _ he, hxe⟩

theorem splitSlash_cons_slash (rest : List Char) :
    splitSlash ('/' :: rest) = [] :: splitSlash rest := by
  conv_lhs => unfold splitSlash
  rw [if_pos rfl]

theorem splitSlash_cons_ne (a : Char) (rest : List Char) (h : a ≠ '/') :
    splitSlash (a :: rest)
      = match splitSlash rest with
        | [] => [[a]]
        | s :: ss => (a :: s) :: ss := by
  conv_lhs => unfold splitSlash
  rw [if_neg h]

theorem splitSlash_noslash_id (c : List Char) (h : ¬ '/' ∈ c) :
    splitSlash c = [c] := by
  induction c with
  | nil => rfl
  | cons x xs ih =>
      have hx : x ≠ '/' := fun he => h (he ▸ List.mem_cons_self x xs)
      have hxs : ¬ '/' ∈ xs := fun hm => h (List.mem_cons_of_mem _ hm)
      rw [splitSlash_cons_ne x xs hx, ih hxs]

theorem splitSlash_append_seg (c : List Char) (x : List Char)
    (h : ¬ '/' ∈ c) :
    splitSlash (c ++ '/' :: x) = c :: splitSlash x := by
  induction c with
  | nil => rfl
  | cons a as ih =>
      have ha : a ≠ '/' := fun he => h (he ▸ List.mem_cons_self a as)
      have has : ¬ '/' ∈ as := fun hm => h (List.mem_cons_of_mem _ hm)
      show splitSlash (a :: (as ++ '/' :: x)) = (a :: as) :: splitSlash x
      rw [splitSlash_cons_ne a _ ha, ih has]

theorem splitSlash_join (comps : List (List Char)) (hne : comps ≠ [])
    (h : ∀ c ∈ comps, ¬ '/' ∈ c) :
    splitSlash (joinSlash comps) = comps := by
  induction comps with
  | nil => cases hne rfl
  | cons c rest ih =>
      cases rest with
      | nil => exact splitSlash_noslash_id c (h c (List.mem_cons_self c []))
      | cons d ds =>
          rw [joinSlash_cons c (d :: ds) (by simp),
            splitSlash_append_seg c _ (h c (List.mem_cons_self c _)),
            ih (by simp) (fun e he => h e (List.mem_cons_of_mem _ he))]

theorem splitSlash_replicate_slash (k : Nat) (rest : List Char) :
    splitSlash (List.replicate k '/' ++ rest)
      = List.replicate k [] ++ splitSlash rest := by
  induction k with
  | zero => rfl
  | succ n ih =>
      rw [List.replicate_succ, List.cons_append, List.replicate_succ,
        List.cons_append]
      show splitSlash ('/' :: (List.replicate n '/' ++ rest)) = _
      rw [splitSlash_cons_slash, ih]

theorem normLoop_cons (slashes : Nat) (revAcc : List (List Char))
    (c : List Char) (rest : List (List Char)) :
    normLoop slashes revAcc (c :: rest)
      = if c = [] ∨ c = ['.'] then normLoop slashes revAcc rest
        else if c ≠ dotdot ∨ (slashes = 0 ∧ revAcc = [])
            ∨ revAcc.head? = some dotdot then
          normLoop slashes (c :: revAcc) rest
        else if revAcc ≠ [] then normLoop slashes revAcc.tail rest
        else normLoop slashes revAcc rest := by
  conv_lhs => unfold normLoop

theorem normLoop_skip_empty (slashes : Nat) (k : Nat)
    (revAcc cs : List (List Char)) :
    normLoop slashes revAcc (List.replicate k [] ++ cs)
      = normLoop slashes revAcc cs := by
  induction k with
  | zero => rfl
  | succ n ih =>
      rw [List.replicate_succ, List.cons_append, normLoop_cons,
        if_pos (Or.inl rfl), ih]

theorem normLoop_good (slashes : Nat) (cs : List (List Char)) :
    ∀ revAcc : List (List Char),
      (∀ c ∈ cs, ¬ '/' ∈ c) →
      (∀ c ∈ revAcc, c ≠ [] ∧ ¬ '/' ∈ c ∧ c ≠ ['.']) →
      ∀ c ∈ normLoop slashes revAcc cs, c ≠ [] ∧ ¬ '/' ∈ c ∧ c ≠ ['.'] := by
  induction cs with
  | nil => intro revAcc _ hacc c hc; exact hacc c hc
  | cons c rest ih =>
      intro revAcc hcs hacc e he
      have hcrest : ∀ x ∈ rest, ¬ '/' ∈ x :=
        fun x hx => hcs x (List.mem_cons_of_mem _ hx)
      rw [normLoop_cons] at he
      by_cases h1 : c = [] ∨ c = ['.']
      · rw [if_pos h1] at he
        exact ih revAcc hcrest hacc e he
      · rw [if_neg h1] at he
        push_neg at h1
        by_cases h2 : c ≠ dotdot ∨ (slashes = 0 ∧ revAcc = [])
            ∨ revAcc.head? = some dotdot
        · rw [if_pos h2] at he
          refine ih _ hcrest ?_ e he
          intro x hx
          rcases List.mem_cons.mp hx with hxe | hxm
          · exact hxe ▸ ⟨h1.1, hcs c (List.mem_cons_self c rest), h1.2⟩
          · exact hacc x hxm
        · rw [if_neg h2] at he
          by_cases h3 : revAcc ≠ []
          · rw [if_pos h3] at he
            refine ih _ hcrest ?_ e he
            intro x hx
            exact hacc x (List.mem_of_mem_tail hx)
          · rw [if_neg h3] at he
            exact ih revAcc hcrest hacc e he

theorem normLoop_mem (slashes : Nat) (cs : List (List Char)) :
    ∀ revAcc : List (List Char), ∀ c ∈ normLoop slashes revAcc cs,
      c ∈ revAcc ∨ c ∈ cs := by
  induction cs with
  | nil => intro revAcc c hc; exact Or.inl hc
  | cons c rest ih =>
      intro revAcc e he
      rw [normLoop_cons] at he
      by_cases h1 : c = [] ∨ c = ['.']
      · rw [if_pos h1] at he
        rcases ih revAcc e he with h | h
        · exact Or.inl h
        · exact Or.inr (List.mem_cons_of_mem _ h)
      · rw [if_neg h1] at he
        by_cases h2 : c ≠ dotdot ∨ (slashes = 0 ∧ revAcc = [])
            ∨ revAcc.head? = some dotdot
        · rw [if_pos h2] at he
          rcases ih _ e he with h | h
          · rcases List.mem_cons.mp h with hce | hm
            · exact Or.inr (hce ▸ List.mem_cons_self c rest)
            · exact Or.inl hm
          · exact Or.inr (List.mem_cons_of_mem _ h)
        · rw [if_neg h2] at he
          by_cases h3 : revAcc ≠ []
          · rw [if_pos h3] at he
            rcases ih _ e he with h | h
            · exact Or.inl (List.mem_of_mem_tail h)
            · exact Or.inr (List.mem_cons_of_mem _ h)
          · rw [if_neg h3] at he
            rcases ih revAcc e he with h | h
            · exact Or.inl h
            · exact Or.inr (List.mem_cons_of_mem _ h)

theorem normLoop_no_dotdot (slashes : Nat) (hs : slashes ≠ 0)
    (cs : List (List Char)) :
    ∀ revAcc : List (List Char), ¬ dotdot ∈ revAcc →
      ¬ dotdot ∈ normLoop slashes revAcc cs := by
  induction cs with
  | nil => intro revAcc h; exact h
  | cons c rest ih =>
      intro revAcc h
      rw [normLoop_cons]
      by_cases h1 : c = [] ∨ c = ['.']
      · rw [if_pos h1]; exact ih revAcc h
      · rw [if_neg h1]
        by_cases h2 : c ≠ dotdot ∨ (slashes = 0 ∧ revAcc = [])
            ∨ revAcc.head? = some dotdot
        · rw [if_pos h2]
          refine ih _ ?_
          intro hmem
          rcases List.mem_cons.mp hmem with he | hm
          · rcases h2 with hc | hsl | hh
            · exact hc he.symm
            · exact hs hsl.1
            · cases revAcc with
              | nil => cases hh
              | cons a t =>
                  have : a = dotdot := by simpa using hh
                  exact h (this ▸ List.mem_cons_self a t)
          · exact h hm
        · rw [if_neg h2]
          by_cases h3 : revAcc ≠ []
          · rw [if_pos h3]
            exact ih _ (fun hm => h (List.mem_of_mem_tail hm))
          · rw [if_neg h3]; exact ih revAcc h

/-- The dot-dot components of the accumulator always form a suffix
(equivalently: a prefix of the final, reversed component list). -/
def DDSplit (l : List (List Char)) : Prop :=
  ∃ C D, l = C ++ D ∧ ¬ dotdot ∈ C ∧ ∀ x ∈ D, x = dotdot

theorem normLoop_ddsplit (slashes : Nat) (cs : List (List Char)) :
    ∀ revAcc : List (List Char), DDSplit revAcc →
      DDSplit (normLoop slashes revAcc cs) := by
  induction cs with
  | nil => intro revAcc h; exact h
  | cons c rest ih =>
      intro revAcc h
      rw [normLoop_cons]
      by_cases h1 : c = [] ∨ c = ['.']
      · rw [if_pos h1]; exact ih revAcc h
      · rw [if_neg h1]
        by_cases h2 : c ≠ dotdot ∨ (slashes = 0 ∧ revAcc = [])
            ∨ revAcc.head? = some dotdot
        · rw [if_pos h2]
          refine ih _ ?_
          by_cases hc : c = dotdot
          · subst hc
            rcases h2 with hc2 | hsl | hh
            · cases hc2 rfl
            · rw [hsl.2]
              exact ⟨[], [dotdot], rfl, by simp, by simp⟩
            · rcases h with ⟨C, D, hCD, hC, hD⟩
              have hCnil : C = [] := by
                cases C with
                | nil => rfl
                | cons a t =>
                    exfalso
                    rw [hCD] at hh
                    have : a = dotdot := by simpa using hh
                    exact hC (this ▸ List.mem_cons_self a t)
              subst hCnil
              simp only [List.nil_append] at hCD
              exact ⟨[], dotdot :: D, by rw [hCD]; rfl, by simp,
                fun x hx => by
                  rcases List.mem_cons.mp hx with he | hm
                  · exact he
                  · exact hD x hm⟩
          · rcases h with ⟨C, D, hCD, hC, hD⟩
            exact ⟨c :: C, D, by rw [hCD]; rfl, fun hm => by
                rcases List.mem_cons.mp hm with he | hm2
                · exact hc he.symm
                · exact hC hm2, hD⟩
        · rw [if_neg h2]
          by_cases h3 : revAcc ≠ []
          · rw [if_pos h3]
            refine ih _ ?_
            rcases h with ⟨C, D, hCD, hC, hD⟩
            cases C with
            | nil =>
                cases D with
                | nil => simp [hCD] at h3
                | cons d ds =>
                    refine ⟨[], ds, ?_, by simp, fun x hx =>
                      hD x (List.mem_cons_of_mem _ hx)⟩
                    rw [hCD]
                    rfl
            | cons a t =>
                refine ⟨t, D, ?_, fun hm =>
                  hC (List.mem_cons_of_mem _ hm), hD⟩
                rw [hCD]
                rfl
          · rw [if_neg h3]; exact ih revAcc h

theorem normLoop_all_append (slashes : Nat) (cs : List (List Char)) :
    ∀ revAcc : List (List Char),
      (∀ c ∈ cs, c ≠ [] ∧ c ≠ ['.'] ∧ c ≠ dotdot) →
      normLoop slashes revAcc cs = cs.reverse ++ revAcc := by
  induction cs with
  | nil => intro revAcc _; rfl
  | cons c rest ih =>
      intro revAcc h
      have hc := h c (List.mem_cons_self c rest)
      rw [normLoop_cons, if_neg (by push_neg; exact ⟨hc.1, hc.2.1⟩),
        if_pos (Or.inl hc.2.2),
        ih _ (fun x hx => h x (List.mem_cons_of_mem _ hx))]
      simp

theorem normLoop_dd_run (dds : List (List Char)) :
    ∀ (revAcc rest : List (List Char)),
      (∀ c ∈ dds, c = dotdot) → (∀ c ∈ revAcc, c = dotdot) →
      normLoop 0 revAcc (dds ++ rest)
        = normLoop 0 (dds.reverse ++ revAcc) rest := by
  induction dds with
  | nil => intro revAcc rest _ _; rfl
  | cons c cs ih =>
      intro revAcc rest hdds hacc
      have hc : c = dotdot := hdds c (List.mem_cons_self c cs)
      have hne : ¬ (c = [] ∨ c = ['.']) := by
        subst hc
        push_neg
        exact ⟨by simp [dotdot], by simp [dotdot]⟩
      rw [List.cons_append, normLoop_cons, if_neg hne]
      have hcond : c ≠ dotdot ∨ (0 = 0 ∧ revAcc = [])
          ∨ revAcc.head? = some dotdot := by
        cases revAcc with
        | nil => exact Or.inr (Or.inl ⟨rfl, rfl⟩)
        | cons a t =>
            refine Or.inr (Or.inr ?_)
            rw [hacc a (List.mem_cons_self a t)]
            rfl
      rw [if_pos hcond,
        ih (c :: revAcc) rest (fun x hx => hdds x (List.mem_cons_of_mem _ hx))
          (fun x hx => by
            rcases List.mem_cons.mp hx with he | hm
            · exact he ▸ hc
            · exact hacc x hm)]
      simp

theorem normLoop_fixed (slashes : Nat) (dds rest : List (List Char))
    (hdds : ∀ c ∈ dds, c = dotdot)
    (hrest : ∀ c ∈ rest, c ≠ [] ∧ c ≠ ['.'] ∧ c ≠ dotdot)
    (habs : slashes ≠ 0 → dds = []) :
    normLoop slashes [] (dds ++ rest) = (dds ++ rest).reverse := by
  by_cases hs : slashes = 0
  · subst hs
    rw [normLoop_dd_run dds [] rest hdds (by simp),
      List.append_nil, normLoop_all_append 0 rest _ hrest]
    simp
  · rw [habs hs, List.nil_append,
      normLoop_all_append slashes rest [] hrest]
    simp

theorem unquoteL_cons_ne (c : Char) (rest : List Char) (h : c ≠ '%') :
    unquoteL (c :: rest) = c :: unquoteL rest := by
  conv_lhs => unfold unquoteL
  rw [if_neg h]

theorem unquote_no_percent (cs : List Char) (h : ¬ '%' ∈ cs) :
    unquoteL cs = cs := by
  induction cs with
  | nil => rfl
  | cons c rest ih =>
      have hc : c ≠ '%' := fun he => h (he ▸ List.mem_cons_self c rest)
      have hr : ¬ '%' ∈ rest := fun hm => h (List.mem_cons_of_mem _ hm)
      rw [unquoteL_cons_ne c rest hc, ih hr]

theorem normpathL_eq (p : List Char) (hp : p ≠ []) :
    normpathL p
      = (if List.replicate (initialSlashes p) '/' ++ joinSlash
            ((normLoop (initialSlashes p) [] (splitSlash p)).reverse) = []
         then ['.']
         else List.replicate (initialSlashes p) '/' ++ joinSlash
            ((normLoop (initialSlashes p) [] (splitSlash p)).reverse)) := by
  unfold normpathL
  rw [if_neg hp]

theorem initialSlashes_cases (p : List Char) :
    initialSlashes p = 0 ∨ initialSlashes p = 1 ∨ initialSlashes p = 2 := by
  unfold initialSlashes
  split
  · split
    · exact Or.inr (Or.inr rfl)
    · exact Or.inr (Or.inl rfl)
  · exact Or.inl rfl

theorem initialSlashes_pos (p : List Char) (h : p.head? = some '/') :
    initialSlashes p ≠ 0 := by
  unfold initialSlashes
  rw [if_pos h]
  split <;> simp

theorem joinSlash_cons_head (x : Char) (xs : List Char)
    (rest : List (List Char)) :
    (joinSlash ((x :: xs) :: rest)).head? = some x := by
  cases rest with
  | nil => rfl
  | cons d ds => rfl

theorem initialSlashes_cons_ne (x : Char) (t : List Char) (hx : x ≠ '/') :
    initialSlashes (x :: t) = 0 := by
  unfold initialSlashes
  rw [if_neg (by simp [hx])]

theorem initialSlashes_one (x : Char) (t : List Char) (hx : x ≠ '/') :
    initialSlashes ('/' :: x :: t) = 1 := by
  unfold initialSlashes
  rw [if_pos (show ('/' :: x :: t).head? = some '/' from rfl)]
  rw [if_neg (by
    intro hand
    have h2 := hand.1
    rw [show List.take 2 ('/' :: x :: t) = ['/', x] from rfl] at h2
    have := List.cons.injEq '/' [x] '/' ['/'] ▸ h2
    simp at h2
    exact hx h2)]

theorem initialSlashes_two (x : Char) (t : List Char) (hx : x ≠ '/') :
    initialSlashes ('/' :: '/' :: x :: t) = 2 := by
  unfold initialSlashes
  rw [if_pos (show ('/' :: '/' :: x :: t).head? = some '/' from rfl)]
  rw [if_pos (by
    refine ⟨rfl, ?_⟩
    intro h3
    rw [show List.take 3 ('/' :: '/' :: x :: t) = ['/', '/', x] from rfl] at h3
    simp at h3
    exact hx h3)]

theorem initialSlashes_out (k : Nat) (comps : List (List Char))
    (hk3 : k = 0 ∨ k = 1 ∨ k = 2)
    (hgood : ∀ c ∈ comps, c ≠ [] ∧ ¬ '/' ∈ c)
    (hne : k = 0 → comps ≠ []) :
    initialSlashes (List.replicate k '/' ++ joinSlash comps) = k := by
  have hhead : ∀ (c : List Char) (rest : List (List Char)),
      comps = c :: rest → ∃ x xs, c = x :: xs ∧ x ≠ '/' := by
    intro c rest hc
    have hm : c ∈ comps := by rw [hc]; exact List.mem_cons_self c rest
    rcases hgood c hm with ⟨hne2, hnos⟩
    cases c with
    | nil => cases hne2 rfl
    | cons x xs =>
        exact ⟨x, xs, rfl, fun he => hnos (he ▸ List.mem_cons_self x xs)⟩
  rcases hk3 with hk | hk | hk <;> subst hk
  · cases hc : comps with
    | nil => cases hne rfl hc
    | cons c rest =>
        rcases hhead c rest hc with ⟨x, xs, hcx, hx⟩
        subst hcx
        have hj : ∃ t, joinSlash ((x :: xs) :: rest) = x :: t := by
          cases rest with
          | nil => exact ⟨xs, rfl⟩
          | cons d ds => exact ⟨xs ++ '/' :: joinSlash (d :: ds), rfl⟩
        rcases hj with ⟨t, hj⟩
        rw [List.replicate_zero, List.nil_append, hj]
        exact initialSlashes_cons_ne x t hx
  · cases hc : comps with
    | nil =>
        rw [show joinSlash ([] : List (List Char)) = [] from rfl]
        decide
    | cons c rest =>
        rcases hhead c rest hc with ⟨x, xs, hcx, hx⟩
        subst hcx
        have hj : ∃ t, joinSlash ((x :: xs) :: rest) = x :: t := by
          cases rest with
          | nil => exact ⟨xs, rfl⟩
          | cons d ds => exact ⟨xs ++ '/' :: joinSlash (d :: ds), rfl⟩
        rcases hj with ⟨t, hj⟩
        rw [hj, show List.replicate 1 '/' ++ x :: t = '/' :: x :: t from rfl]
        exact initialSlashes_one x t hx
  · cases hc : comps with
    | nil =>
        rw [show joinSlash ([] : List (List Char)) = [] from rfl]
        decide
    | cons c rest =>
        rcases hhead c rest hc with ⟨x, xs, hcx, hx⟩
        subst hcx
        have hj : ∃ t, joinSlash ((x :: xs) :: rest) = x :: t := by
          cases rest with
          | nil => exact ⟨xs, rfl⟩
          | cons d ds => exact ⟨xs ++ '/' :: joinSlash (d :: ds), rfl⟩
        rcases hj with ⟨t, hj⟩
        rw [hj, show List.replicate 2 '/' ++ x :: t = '/' :: '/' :: x :: t
          from rfl]
        exact initialSlashes_two x t hx

theorem normpath_reconstruct (k : Nat) (comps : List (List Char))
    (hk3 : k = 0 ∨ k = 1 ∨ k = 2)
    (hgood : ∀ c ∈ comps, c ≠ [] ∧ ¬ '/' ∈ c ∧ c ≠ ['.'])
    (hshape : ∃ dds rest, comps = dds ++ rest ∧ (∀ x ∈ dds, x = dotdot)
        ∧ ¬ dotdot ∈ rest)
    (habs : k ≠ 0 → ¬ dotdot ∈ comps)
    (hres : List.replicate k '/' ++ joinSlash comps ≠ []) :
    normpathL (List.replicate k '/' ++ joinSlash comps)
      = List.replicate k '/' ++ joinSlash comps := by
  have hq := normpathL_eq _ hres
  have hslash : initialSlashes (List.replicate k '/' ++ joinSlash comps)
      = k := by
    apply initialSlashes_out k comps hk3
      (fun c hc => ⟨(hgood c hc).1, (hgood c hc).2.1⟩)
    intro hk0 hcnil
    apply hres
    rw [hk0, hcnil]
    rfl
  rw [hq, hslash, splitSlash_replicate_slash]
  by_cases hc : comps = []
  · subst hc
    rw [show joinSlash ([] : List (List Char)) = [] from rfl,
      show splitSlash [] = [[]] from rfl, normLoop_skip_empty,
      show ([[]] : List (List Char)) = List.replicate 1 [] ++ [] from rfl,
      normLoop_skip_empty,
      show normLoop k [] [] = [] from rfl]
    rw [show joinSlash (([] : List (List Char)).reverse) = [] from rfl]
    rw [if_neg (show List.replicate k '/' ++ ([] : List Char) ≠ [] from hres)]
  · rw [splitSlash_join comps hc (fun c hcm => (hgood c hcm).2.1),
      normLoop_skip_empty]
    rcases hshape with ⟨dds, rest, hsp, hdds, hrest⟩
    have hfix : normLoop k [] comps = comps.reverse := by
      rw [hsp]
      apply normLoop_fixed k dds rest hdds
      · intro c hcm
        have hg := hgood c (by rw [hsp]; exact List.mem_append_right _ hcm)
        exact ⟨hg.1, hg.2.2, fun he => hrest (he ▸ hcm)⟩
      · intro hk0
        by_contra hne
        cases dds with
        | nil => exact hne rfl
        | cons d ds =>
            have hd : d = dotdot := hdds d (List.mem_cons_self d ds)
            exact habs hk0 (by
              rw [hsp, ← hd]
              exact List.mem_append_left _ (List.mem_cons_self d ds))
    rw [hfix, List.reverse_reverse, if_neg hres]

theorem normpath_idem (p : List Char) :
    normpathL (normpathL p) = normpathL p := by
  by_cases hp : p = []
  · subst hp
    decide
  · have hq := normpathL_eq p hp
    by_cases hres : List.replicate (initialSlashes p) '/' ++ joinSlash
        ((normLoop (initialSlashes p) [] (splitSlash p)).reverse) = []
    · rw [hq, if_pos hres]
      decide
    · rw [hq, if_neg hres]
      apply normpath_reconstruct (initialSlashes p) _
        (initialSlashes_cases p)
      · intro c hc
        exact normLoop_good _ _ [] (splitSlash_no_slash p) (by simp) c
          (List.mem_reverse.mp hc)
      · rcases normLoop_ddsplit (initialSlashes p) (splitSlash p) []
          ⟨[], [], rfl, by simp, by simp⟩ with ⟨C, D, hCD, hC, hD⟩
        refine ⟨D.reverse, C.reverse, ?_, ?_, ?_⟩
        · rw [hCD, List.reverse_append]
        · intro x hx
          exact hD x (List.mem_reverse.mp hx)
        · intro hm
          exact hC (List.mem_reverse.mp hm)
      · intro hs hm
        exact normLoop_no_dotdot _ hs _ [] (by simp)
          (List.mem_reverse.mp hm)
      · exact hres

theorem normpath_no_percent (p : List Char) (h : ¬ '%' ∈ p) :
    ¬ '%' ∈ normpathL p := by
  by_cases hp : p = []
  · subst hp
    decide
  · rw [normpathL_eq p hp]
    by_cases hres : List.replicate (initialSlashes p) '/' ++ joinSlash
        ((normLoop (initialSlashes p) [] (splitSlash p)).reverse) = []
    · rw [if_pos hres]
      decide
    · rw [if_neg hres]
      intro hm
      rcases List.mem_append.mp hm with hm1 | hm2
      · have h2 := List.eq_of_mem_replicate hm1
        exact absurd h2 (by decide)
      · rcases joinSlash_chars _ '%' hm2 with he | ⟨c, hc, hxc⟩
        · exact absurd he (by decide)
        · rcases normLoop_mem _ _ [] c (List.mem_reverse.mp hc) with h0 | h1
          · cases h0
          · exact h (splitSlash_subset p c h1 '%' hxc)

theorem sanitize_no_dotdot_abs (p : List Char) (h : p.head? = some '/') :
    hasDotdotSeg (normpathL p) = false := by
  have hp : p ≠ [] := by
    cases p with
    | nil => cases h
    | cons a t => simp
  have hs : initialSlashes p ≠ 0 := initialSlashes_pos p h
  rw [normpathL_eq p hp]
  by_cases hres : List.replicate (initialSlashes p) '/' ++ joinSlash
      ((normLoop (initialSlashes p) [] (splitSlash p)).reverse) = []
  · rw [if_pos hres]
    decide
  · rw [if_neg hres]
    apply decide_eq_false
    intro hm
    rw [splitSlash_replicate_slash] at hm
    rcases List.mem_append.mp hm with hm1 | hm2
    · have h2 := List.eq_of_mem_replicate hm1
      exact absurd h2 (by decide)
    · by_cases hc : (normLoop (initialSlashes p) [] (splitSlash p)).reverse
          = []
      · rw [hc, show joinSlash ([] : List (List Char)) = [] from rfl,
          show splitSlash [] = [[]] from rfl] at hm2
        rcases List.mem_cons.mp hm2 with he | he2
        · exact absurd he (by decide)
        · cases he2
      · rw [splitSlash_join _ hc (fun c hcm =>
          (normLoop_good _ _ [] (splitSlash_no_slash p) (by simp) c
            (List.mem_reverse.mp hcm)).2.1)] at hm2
        exact normLoop_no_dotdot _ hs _ [] (by simp)
          (List.mem_reverse.mp hm2)

/-- C5 (amended): `sanitize` is idempotent on URIs containing no percent
character (double percent-encoding defeats idempotence: the second pass
decodes one more level), and whenever the percent-decoded path is
absolute (begins with `/`) the sanitized result contains no `..`
segment; a relative decoded path may keep leading `..` segments. -/
theorem C5_sanitize (uri : String) :
    (¬ '%' ∈ uri.data →
      sanitize_uri (sanitize_uri uri) = sanitize_uri uri)
  ∧ ((unquoteL uri.data).head? = some '/' →
      hasDotdotSeg (sanitize_uri uri).data = false) := by
  constructor
  · intro h
    show String.mk (normpathL (unquoteL
        (String.mk (normpathL (unquoteL uri.data))).data))
      = String.mk (normpathL (unquoteL uri.data))
    have hd : (String.mk (normpathL (unquoteL uri.data))).data
        = normpathL (unquoteL uri.data) := rfl
    rw [hd, unquote_no_percent uri.data h,
      unquote_no_percent _ (normpath_no_percent uri.data h),
      normpath_idem]
  · intro h
    show hasDotdotSeg (String.mk (normpathL (unquoteL uri.data))).data
        = false
    exact sanitize_no_dotdot_abs _ h

/-- Witness for C5 at a concrete input: a percent-free absolute path
with `.` and `..` segments sanitizes idempotently and without any `..`
segment in the result. -/
theorem C5_sanitize_witness :
    sanitize_uri (sanitize_uri "/a/./b/../c") = sanitize_uri "/a/./b/../c"
  ∧ hasDotdotSeg (sanitize_uri "/a/./b/../c").data = false :=
  ⟨(C5_sanitize "/a/./b/../c").1 (by decide),
   (C5_sanitize "/a/./b/../c").2 (by decide)⟩

end Radicale
